import Mathlib

/-!
# Verification of the value-store document mutation and merge engine

This file gives a shallow embedding of the core of the `value-store`
repository (Rust) and proves properties of its specification against it.

Modelling conventions:
* `i64` is modelled as `Int`, `u8`/`u32`/`u64` as `Nat` (with `% 2 ^ w`
  where overflow can occur).
* `f64` is modelled by its 64-bit pattern as a `Nat`; NaN and zero tests
  are defined on the bit pattern.
* `Arc<T>` shared ownership is erased: `Arc::make_mut` (copy-on-write
  unsharing) preserves the value and is therefore value-level identity.
* `HashMap<String, V>` is modelled as an association list
  `List (String × V)`; the Rust type guarantees unique keys, which becomes
  an explicit well-formedness hypothesis where a proof needs it.
* `BTreeMap<u32, V>` is modelled as an association list sorted by key.
* Functions mutating `&mut self` and returning `Result<(), E>` are
  modelled as functions returning the updated value paired with
  `Option E` (the state after the call, and the error if any).
-/

set_option maxHeartbeats 1000000
set_option linter.unusedVariables false

namespace ValueStore

/-- `PathElement` from `src/types/path_element.rs`: either a map field
name or a zero-based array index (`u32`). -/
inductive PathElement where
  | field (name : String)
  | index (i : Nat)
deriving DecidableEq

/-- Association-list lookup, modelling `HashMap::get`: the first binding
of the key (a Rust `HashMap` has at most one). -/
def hmLookup {α : Type} : List (String × α) → String → Option α
  | [], _ => none
  | (k, v) :: rest, key => if k == key then some v else hmLookup rest key

/-- Association-list in-place value update, modelling writing through
`HashMap::get_mut`: replaces the value of the first binding of the key. -/
def hmSet {α : Type} : List (String × α) → String → α → List (String × α)
  | [], _, _ => []
  | (k, v) :: rest, key, nv =>
      if k == key then (k, nv) :: rest else (k, v) :: hmSet rest key nv

/-- Association-list removal, modelling `Entry::remove`: drops the first
binding of the key. -/
def hmRemove {α : Type} : List (String × α) → String → List (String × α)
  | [], _ => []
  | (k, v) :: rest, key =>
      if k == key then rest else (k, v) :: hmRemove rest key

/-- `Value` from `src/types/value.rs`. `Float(f64)` is carried as the
64-bit pattern; `Blob` inlines the `Blob { mime, data }` struct; `Array`
and `Map` erase the `Arc` sharing. -/
inductive Value where
  | integer (v : Int)
  | float (bits : Nat)
  | bool (b : Bool)
  | str (s : String)
  | blob (mime : String) (data : List Nat)
  | array (elems : List Value)
  | map (entries : List (String × Value))

/-- `f64::is_nan` on the bit pattern: exponent all ones, mantissa
nonzero. -/
def f64IsNan (b : Nat) : Bool := (b / 2 ^ 52) % 2 ^ 11 == 0x7FF && b % 2 ^ 52 != 0

/-- The bit pattern denotes `+0.0` or `-0.0` (all magnitude bits zero). -/
def f64IsZero (b : Nat) : Bool := b % 2 ^ 63 == 0

/-- IEEE 754 `==` on `f64` bit patterns: false on any NaN, and two
non-NaN patterns are equal exactly when the bits agree or both are
zeros (`+0.0 == -0.0`). -/
def f64Beq (a b : Nat) : Bool :=
  !f64IsNan a && !f64IsNan b && (a == b || (f64IsZero a && f64IsZero b))

mutual

/-- NaN-equal structural equality on values, translating
`impl PartialEq for Value` (`src/types/value.rs`): two NaN floats
compare equal; maps compare by length plus pointwise lookup. -/
def valueEq : Value → Value → Bool
  | .integer a, .integer b => a == b
  | .float a, .float b => if f64IsNan a && f64IsNan b then true else f64Beq a b
  | .bool a, .bool b => a == b
  | .str a, .str b => a == b
  | .blob m1 d1, .blob m2 d2 => m1 == m2 && d1 == d2
  | .array a, .array b => valueListEq a b
  | .map a, .map b => a.length == b.length && valueMapIncl a b
  | _, _ => false

/-- `Vec<Value>` equality: same length and pointwise `valueEq`. -/
def valueListEq : List Value → List Value → Bool
  | [], [] => true
  | x :: xs, y :: ys => valueEq x y && valueListEq xs ys
  | _, _ => false

/-- One direction of `HashMap` equality: every binding of the first map
is present, with `valueEq` value, in the second. -/
def valueMapIncl : List (String × Value) → List (String × Value) → Bool
  | [], _ => true
  | (k, v) :: rest, m2 =>
      (match hmLookup m2 k with
       | some v2 => valueEq v v2
       | none => false) && valueMapIncl rest m2

end

/-- `ChangeContent` from `src/types/change.rs`. -/
inductive ChangeContent where
  | insert (path : List PathElement) (value : Value)
  | replace (path : List PathElement) (old : Value) (new : Value)
  | delete (path : List PathElement) (old : Value)

/-- A 32-byte content hash, modelled as its list of bytes. -/
abbrev Hash : Type := List Nat

/-- `ValueStoreError` from `src/error.rs`. -/
inductive ValueStoreError where
  | headParentMismatch (parent : Hash)
  | parentHashSame
  | invalidChange (change : ChangeContent)

/-- `Value::get` (`src/types/value.rs` lines 219-241): walk the path;
fail on absent keys, out-of-range indices, or kind mismatch. -/
def Value.get : Value → List PathElement → Option Value
  | v, [] => some v
  | .map entries, .field name :: next =>
      match hmLookup entries name with
      | some e => Value.get e next
      | none => none
  | .array elems, .index i :: next =>
      match elems[i]? with
      | some e => Value.get e next
      | none => none
  | _, _ :: _ => none

/-- `Value::get_mut` (`src/types/value.rs` lines 242-264), viewed through
the value behind the returned mutable reference. `Arc::make_mut` only
unshares, so the traversal is the same as `get`, written out separately
to mirror its source. -/
def Value.getMutView : Value → List PathElement → Option Value
  | v, [] => some v
  | .map entries, .field name :: next =>
      match hmLookup entries name with
      | some e => Value.getMutView e next
      | none => none
  | .array elems, .index i :: next =>
      match elems[i]? with
      | some e => Value.getMutView e next
      | none => none
  | _, _ :: _ => none

/-- The value-level effect of `get_mut` followed by an in-place action on
the target: descend like `get_mut`, apply `f` at the focus, and write the
result back through the unshared spine. Returns `none` when the descent
or `f` fails (in which case the Rust original leaves the root value
unchanged). -/
def Value.modifyGo (f : Value → Option Value) : Value → List PathElement → Option Value
  | v, [] => f v
  | .map entries, .field name :: next =>
      match hmLookup entries name with
      | some e => (Value.modifyGo f e next).map fun e' => .map (hmSet entries name e')
      | none => none
  | .array elems, .index i :: next =>
      match elems[i]? with
      | some e => (Value.modifyGo f e next).map fun e' => .array (elems.set i e')
      | none => none
  | _, _ :: _ => none

/-- `get_mut` with nothing written: the copy-on-write unsharing pass of
`Value::get_mut`, reassembling the root from the unshared spine. -/
def Value.unshareAt (v : Value) (path : List PathElement) : Option Value :=
  Value.modifyGo some v path

/-! ## Change primitives (`src/apply/simple.rs`) -/

/-- The `match (parent, &path[path.len() - 1])` body of `apply_delete`:
remove a map key whose value equals `old`, or remove an array element
(shifting later elements left) that equals `old`; `none` on any failed
precondition. -/
def deleteHere (old : Value) (last : PathElement) : Value → Option Value
  | .map entries =>
      match last with
      | .field name =>
          match hmLookup entries name with
          | some e => if valueEq old e then some (.map (hmRemove entries name)) else none
          | none => none
      | _ => none
  | .array elems =>
      match last with
      | .index i =>
          if h : i < elems.length then
            if valueEq elems[i] old then some (.array (elems.eraseIdx i)) else none
          else none
      | _ => none
  | _ => none

/-- `apply_delete` (`src/apply/simple.rs` lines 8-81). Returns the value
after the call together with the error, if any; every error carries the
original `Delete` change rebuilt from `full_path`. -/
def applyDelete (this : Value) (path : List PathElement) (old : Value)
    (fullPath : List PathElement) : Value × Option ValueStoreError :=
  match path.getLast? with
  | none => (this, some (.invalidChange (.delete fullPath old)))
  | some last =>
      match Value.modifyGo (deleteHere old last) this path.dropLast with
      | some v' => (v', none)
      | none => (this, some (.invalidChange (.delete fullPath old)))

/-- `apply_replace` (`src/apply/simple.rs` lines 83-112): resolve the
path with `get_mut`, compare the existing value with `old` under
NaN-equal equality, and overwrite with `new` on success. -/
def applyReplace (this : Value) (path : List PathElement) (old new : Value)
    (fullPath : List PathElement) : Value × Option ValueStoreError :=
  match Value.modifyGo (fun cur => if valueEq old cur then some new else none) this path with
  | some v' => (v', none)
  | none => (this, some (.invalidChange (.replace fullPath old new)))

/-- The `match (parent, &path[path.len() - 1])` body of `apply_insert`:
into a map, only if the key is vacant; into an array, only if the index
is at most the length (then shift right and insert). -/
def insertHere (value : Value) (last : PathElement) : Value → Option Value
  | .map entries =>
      match last with
      | .field name =>
          match hmLookup entries name with
          | some _ => none
          | none => some (.map (entries ++ [(name, value)]))
      | _ => none
  | .array elems =>
      match last with
      | .index i =>
          if elems.length < i then none
          else some (.array (elems.insertIdx i value))
      | _ => none
  | _ => none

/-- `apply_insert` (`src/apply/simple.rs` lines 114-171): an empty path
is rejected; otherwise resolve the parent with `get_mut` over the path
prefix and run `insertHere` at the final element. -/
def applyInsert (this : Value) (path : List PathElement) (value : Value)
    (fullPath : List PathElement) : Value × Option ValueStoreError :=
  match path.getLast? with
  | none => (this, some (.invalidChange (.insert fullPath value)))
  | some last =>
      match Value.modifyGo (insertHere value last) this path.dropLast with
      | some v' => (v', none)
      | none => (this, some (.invalidChange (.insert fullPath value)))

/-! ## Conflict engine (`src/conflict.rs`) -/

/-- `ResolvedConflict` from `src/conflict.rs`. -/
structure ResolvedConflict where
  value : Value
  changes : List ChangeContent × List ChangeContent

/-- `BTreeMap::get` on the key-sorted association-list model. -/
def btLookup {α : Type} : List (Nat × α) → Nat → Option α
  | [], _ => none
  | (k, v) :: rest, key => if key = k then some v else btLookup rest key

/-- `BTreeMap::insert` on the key-sorted association-list model:
replaces the binding of an existing key, otherwise inserts in key
order. -/
def btInsert {α : Type} : List (Nat × α) → Nat → α → List (Nat × α)
  | [], key, nv => [(key, nv)]
  | (k, v) :: rest, key, nv =>
      if key < k then (key, nv) :: (k, v) :: rest
      else if key = k then (key, nv) :: rest
      else (k, v) :: btInsert rest key nv

/-- `increase_offset` (`src/conflict.rs` lines 56-63), on the sorted
association-list model of `BTreeMap<u32, u32>`. `offsets.range(..=index)
.next_back()` is the greatest key at most `index`; the stored value is
computed in `u32` arithmetic, hence the `% 2 ^ 32`. -/
def increaseOffset (offsets : List (Nat × Nat)) (index : Nat) : List (Nat × Nat) :=
  match (offsets.filter (fun p => p.1 ≤ index)).getLast? with
  | some (point, val) => btInsert offsets index ((val + (index - point) + 1) % 2 ^ 32)
  | none => btInsert offsets index ((index + 1) % 2 ^ 32)

/-- `ChangeTree` from `src/conflict.rs` (lines 37-54): the hierarchical
aggregate of a change set. `Array` carries a `BTreeMap<u32, ChangeTree>`
and `Map` a `HashMap<String, ChangeTree>`, both as association lists. -/
inductive ChangeTree where
  | replace (old : Value) (new : Value) (changes : List ChangeContent)
  | remove (old : Value) (changes : List ChangeContent)
  | add (new : Value) (changes : List ChangeContent)
  | array (data : List (Nat × ChangeTree))
  | map (entries : List (String × ChangeTree))

/-- `ActiveConflict` from `src/conflict.rs`. -/
structure ActiveConflict where
  commonValue : Value
  conflicts : ChangeTree × ChangeTree
  commonChanges : List ChangeContent × List ChangeContent

/-- `Conflict` from `src/conflict.rs`. -/
inductive Conflict where
  | active (a : ActiveConflict)
  | resolved (r : ResolvedConflict)

/-- `check_conflicts_common_ancestor` (`src/conflict.rs` lines 26-35).
The source body is the literal expression `None`: the three-way merge is
not implemented. -/
def checkConflictsCommonAncestor (ancestor : Value)
    (change1 change2 : List ChangeContent) : Option Conflict :=
  none

/-- The recursion of `ChangeTree::from_insert` (`src/conflict.rs` lines
234-251), over the remaining path `path[index..]` (`path.get(index)` is
the head of the remaining suffix): build a `Map`/`Array` spine ending in
an `Add` leaf. -/
def fromInsertGo (path : List PathElement) (value : Value) : List PathElement → ChangeTree
  | .field name :: rest => .map [(name, fromInsertGo path value rest)]
  | .index i :: rest => .array [(i, fromInsertGo path value rest)]
  | [] => .add value [.insert path value]

/-- `ChangeTree::from_insert`, with the source's `index` cursor. -/
def ChangeTree.fromInsert (path : List PathElement) (value : Value) (index : Nat) :
    ChangeTree :=
  fromInsertGo path value (path.drop index)

/-- The recursion of `ChangeTree::from_replace` (`src/conflict.rs` lines
253-271), over the remaining path. -/
def fromReplaceGo (path : List PathElement) (old new : Value) : List PathElement → ChangeTree
  | .field name :: rest => .map [(name, fromReplaceGo path old new rest)]
  | .index i :: rest => .array [(i, fromReplaceGo path old new rest)]
  | [] => .replace old new [.replace path old new]

/-- `ChangeTree::from_replace`, with the source's `index` cursor. -/
def ChangeTree.fromReplace (path : List PathElement) (old new : Value) (index : Nat) :
    ChangeTree :=
  fromReplaceGo path old new (path.drop index)

/-- The recursion of `ChangeTree::from_delete` (`src/conflict.rs` lines
273-290), over the remaining path. -/
def fromDeleteGo (path : List PathElement) (old : Value) : List PathElement → ChangeTree
  | .field name :: rest => .map [(name, fromDeleteGo path old rest)]
  | .index i :: rest => .array [(i, fromDeleteGo path old rest)]
  | [] => .remove old [.delete path old]

/-- `ChangeTree::from_delete`, with the source's `index` cursor. -/
def ChangeTree.fromDelete (path : List PathElement) (old : Value) (index : Nat) :
    ChangeTree :=
  fromDeleteGo path old (path.drop index)

/-- `BTreeMap::split_off(&i)` keeps the keys `< i` in place and returns
the rest; on the sorted model the two parts are the filtered prefix and
suffix. Returns `(kept, split-off)`. -/
def btSplitOff {α : Type} (m : List (Nat × α)) (i : Nat) :
    List (Nat × α) × List (Nat × α) :=
  (m.filter (fun p => decide (p.1 < i)), m.filter (fun p => decide (i ≤ p.1)))

/-- `ChangeTree::add_change_insert` (`src/conflict.rs` lines 76-151).
Returns the tree after the call and the error, if any. At a `Replace` or
`Add` leaf the insert is applied inside `new` via `apply_insert`; at a
`Remove` leaf it fails unless the remaining path is empty, in which case
the leaf is promoted to `Replace { old, new := value }` keeping both
change lists; `Array`/`Map` nodes descend, installing a fresh spine (and
shifting later array keys up by one) when the child is missing. -/
def addChangeInsertGo (path : List PathElement) (value : Value) :
    ChangeTree → List PathElement → ChangeTree × Option ValueStoreError
  | t, elem :: rest =>
      match t, elem with
      | .replace old new changes, _ =>
          match applyInsert new rest value path with
          | (new', none) => (.replace old new' (changes ++ [.insert path value]), none)
          | (new', some e) => (.replace old new' changes, some e)
      | .remove old changes, _ =>
          (.remove old changes, some (.invalidChange (.insert path value)))
      | .add new changes, _ =>
          match applyInsert new rest value path with
          | (new', none) => (.add new' (changes ++ [.insert path value]), none)
          | (new', some e) => (.add new' changes, some e)
      | .array m, .index i =>
          match btLookup m i with
          | some child =>
              match addChangeInsertGo path value child rest with
              | (child', e) => (.array (btInsert m i child'), e)
          | none =>
              match btSplitOff m i with
              | (kept, after) =>
                  (.array ((btInsert kept i (fromInsertGo path value rest)
                      |> fun base => after.foldl (fun acc kv => btInsert acc (kv.1 + 1) kv.2) base)),
                    none)
      | .array m, .field _ =>
          (.array m, some (.invalidChange (.insert path value)))
      | .map m, .field name =>
          match hmLookup m name with
          | some child =>
              match addChangeInsertGo path value child rest with
              | (child', e) => (.map (hmSet m name child'), e)
          | none =>
              (.map (m ++ [(name, fromInsertGo path value rest)]), none)
      | .map m, .index _ =>
          (.map m, some (.invalidChange (.insert path value)))
  | t, [] =>
      match t with
      | .remove old changes =>
          (.replace old value (changes ++ [.insert path value]), none)
      | t => (t, some (.invalidChange (.insert path value)))

/-- `ChangeTree::add_change_insert`, with the source's `index` cursor:
the recursion runs over the remaining path `path[index..]` whose head is
`path.get(index)`. -/
def ChangeTree.addChangeInsert (t : ChangeTree) (path : List PathElement)
    (value : Value) (index : Nat) : ChangeTree × Option ValueStoreError :=
  addChangeInsertGo path value t (path.drop index)

/-- `ChangeTree::add_change` (`src/conflict.rs` lines 292-310). The
`Replace` and `Delete` arms on a nonempty accumulator are `todo!()` in
the source; that panic is modelled by the outer `none`. -/
def ChangeTree.addChange (this : Option ChangeTree) (change : ChangeContent) :
    Option (Option ChangeTree × Option ValueStoreError) :=
  match this with
  | some t =>
      match change with
      | .insert path value =>
          match ChangeTree.addChangeInsert t path value 0 with
          | (t', e) => some (some t', e)
      | .replace _ _ _ => none
      | .delete _ _ => none
  | none =>
      some (some (match change with
        | .insert path value => ChangeTree.fromInsert path value 0
        | .replace path old new => ChangeTree.fromReplace path old new 0
        | .delete path old => ChangeTree.fromDelete path old 0), none)

/-- `ChangeTree::construct` (`src/conflict.rs` lines 66-74): fold
`add_change` over the change sequence, stopping at the first error.
The outer `none` records that a `todo!()` was reached. -/
def ChangeTree.construct (changes : List ChangeContent) :
    Option (Except ValueStoreError (Option ChangeTree)) :=
  go none changes
where
  go (acc : Option ChangeTree) :
      List ChangeContent → Option (Except ValueStoreError (Option ChangeTree))
  | [] => some (.ok acc)
  | c :: cs =>
      match ChangeTree.addChange acc c with
      | none => none
      | some (_, some e) => some (.error e)
      | some (acc', none) => go acc' cs

/-! ## Hash ordering and parent discipline (`src/types/change.rs`) -/

/-- `[u8; 32]::cmp`: lexicographic, elementwise byte comparison. -/
def hashCmp : List Nat → List Nat → Ordering
  | [], [] => .eq
  | [], _ :: _ => .lt
  | _ :: _, [] => .gt
  | a :: as1, b :: bs1 =>
      match compare a b with
      | .eq => hashCmp as1 bs1
      | o => o

/-- `Parents` from `src/types/change.rs` (variants `One` and `Two`). -/
inductive Parents where
  | One (h : Hash)
  | Two (h1 h2 : Hash)

/-- `Parents::one` (`src/types/change.rs` lines 57-59): always succeeds. -/
def Parents.one (p : Hash) : Except ValueStoreError Parents := .ok (.One p)

/-- `Parents::two` (`src/types/change.rs` lines 60-66): equal hashes are
the domain error `ParentHashSame`; otherwise the lexicographically
smaller hash is stored first. -/
def Parents.two (p1 p2 : Hash) : Except ValueStoreError Parents :=
  match hashCmp p1 p2 with
  | .lt => .ok (.Two p1 p2)
  | .eq => .error .parentHashSame
  | .gt => .ok (.Two p2 p1)

/-- Decoding errors surfaced by the serde visitors, keeping the message
or length they report. -/
inductive DeError where
  | custom (msg : String)
  | invalidLength (len : Nat)
  | invalidValue (msg : String)
  | invalidType (msg : String)

/-- `impl Serialize for Parents` (`src/types/change.rs` lines 76-95): a
sequence of the stored hashes, in stored order. -/
def serializeParents : Parents → List Hash
  | .One p => [p]
  | .Two p1 p2 => [p1, p2]

/-- `ParentsVisitor::visit_seq` (`src/types/change.rs` lines 106-130):
length 1 gives `One`; length 2 requires strict ascending order, else a
custom "parents not ordered" error; length 0 and length over 2 are
`invalid_length` errors (the latter reporting the deserializer's
remaining-size hint). -/
def deserializeParentsSeq : List Hash → Except DeError Parents
  | [] => .error (.invalidLength 0)
  | [p1] => .ok (.One p1)
  | [p1, p2] =>
      if hashCmp p1 p2 = .lt then .ok (.Two p1 p2)
      else .error (.custom "parents not ordered")
  | _ :: _ :: rest => .error (.invalidLength rest.length)

/-! ## The self-describing serialization data model (`src/types/value.rs`)

`Value` is serialized through serde into a self-describing binary format
(CBOR via `ciborium`). The external encoder is modelled by the serde
data model itself: a `Token` tree whose constructors are exactly the
encoder primitives the `Serialize` impl calls and the `visit_*` methods
`ValueVisitor` implements. -/

/-- The serde data-model events used by `Value`: `serialize_i64`,
`serialize_f64`, `serialize_bool`, `serialize_str`, `serialize_bytes`,
sequences, and string-keyed maps, plus the unsigned-integer form a
self-describing decoder may deliver. -/
inductive Token where
  | i64 (v : Int)
  | u64 (v : Nat)
  | f64 (bits : Nat)
  | bool (b : Bool)
  | str (s : String)
  | bytes (data : List Nat)
  | seq (elems : List Token)
  | map (entries : List (String × Token))

/-- UTF-8 encoding of one scalar value (Rust `str` bytes), in the
arithmetic form of the standard bit packing. -/
def encodeCharUtf8 (c : Char) : List Nat :=
  let n := c.toNat
  if n < 0x80 then [n]
  else if n < 0x800 then [0xC0 + n / 64, 0x80 + n % 64]
  else if n < 0x10000 then [0xE0 + n / 4096, 0x80 + n / 64 % 64, 0x80 + n % 64]
  else [0xF0 + n / 262144, 0x80 + n / 4096 % 64, 0x80 + n / 64 % 64, 0x80 + n % 64]

/-- `str::as_bytes`: the UTF-8 byte sequence of a Rust string. -/
def utf8Bytes (s : String) : List Nat :=
  (s.data.map encodeCharUtf8).flatten

/-- Is `c` a UTF-8 continuation byte (`0b10xxxxxx`)? -/
def utf8IsCont (c : Nat) : Bool := 0x80 ≤ c && c < 0xC0

/-- Decode one UTF-8 scalar: given the first byte and the remaining
bytes, return the scalar value and how many continuation bytes were
consumed. Rejects continuation-only or out-of-range lead bytes, missing
or malformed continuations, overlong forms, surrogates, and values past
`0x10FFFF` — the language accepted by `std::str::from_utf8`. -/
def decodeCharUtf8 (b : Nat) (rest : List Nat) : Option (Nat × Nat) :=
  if b < 0x80 then some (b, 0)
  else if b < 0xC0 then none
  else if b < 0xE0 then
    match rest with
    | c1 :: _ =>
        if utf8IsCont c1 then
          let n := (b - 0xC0) * 64 + (c1 - 0x80)
          if 0x80 ≤ n then some (n, 1) else none
        else none
    | _ => none
  else if b < 0xF0 then
    match rest with
    | c1 :: c2 :: _ =>
        if utf8IsCont c1 && utf8IsCont c2 then
          let n := (b - 0xE0) * 4096 + (c1 - 0x80) * 64 + (c2 - 0x80)
          if 0x800 ≤ n && !(0xD800 ≤ n && n < 0xE000) then some (n, 2) else none
        else none
    | _ => none
  else if b < 0xF8 then
    match rest with
    | c1 :: c2 :: c3 :: _ =>
        if utf8IsCont c1 && utf8IsCont c2 && utf8IsCont c3 then
          let n := (b - 0xF0) * 262144 + (c1 - 0x80) * 4096 + (c2 - 0x80) * 64 + (c3 - 0x80)
          if 0x10000 ≤ n && n < 0x110000 then some (n, 3) else none
        else none
    | _ => none
  else none

/-- Decode a full UTF-8 byte sequence into characters;
`none` on any invalid byte (the `Err` of `std::str::from_utf8`). -/
def decodeUtf8 : List Nat → Option (List Char)
  | [] => some []
  | b :: rest =>
      match decodeCharUtf8 b rest with
      | some (n, k) => (decodeUtf8 (rest.drop k)).map (Char.ofNat n :: ·)
      | none => none
termination_by l => l.length
decreasing_by
  simp only [List.length_cons, List.length_drop]
  omega

/-- `std::str::from_utf8(..).to_string()`: decode bytes into a string. -/
def utf8DecodeString? (bs : List Nat) : Option String :=
  (decodeUtf8 bs).map fun cs => ⟨cs⟩

mutual

/-- `impl Serialize for Value` (`src/types/value.rs` lines 42-68).
A blob whose mime byte length exceeds 255 is a serialization error
(`ser::Error::custom`); otherwise the blob becomes one byte string:
length byte, mime bytes, payload. -/
def serializeValue : Value → Except String Token
  | .integer v => .ok (.i64 v)
  | .float b => .ok (.f64 b)
  | .bool b => .ok (.bool b)
  | .str s => .ok (.str s)
  | .blob mime data =>
      if 255 < (utf8Bytes mime).length then
        .error "mime type should have a max len of 255"
      else .ok (.bytes ((utf8Bytes mime).length :: (utf8Bytes mime ++ data)))
  | .array elems =>
      match serializeValueList elems with
      | .ok ts => .ok (.seq ts)
      | .error e => .error e
  | .map entries =>
      match serializeValueEntries entries with
      | .ok ts => .ok (.map ts)
      | .error e => .error e

/-- Serialization of `Arc<Vec<Value>>`: elementwise. -/
def serializeValueList : List Value → Except String (List Token)
  | [] => .ok []
  | v :: vs =>
      match serializeValue v with
      | .error e => .error e
      | .ok t =>
          match serializeValueList vs with
          | .error e => .error e
          | .ok ts => .ok (t :: ts)

/-- Serialization of `Arc<HashMap<String, Value>>`: entrywise; string
keys serialize as themselves. -/
def serializeValueEntries : List (String × Value) → Except String (List (String × Token))
  | [] => .ok []
  | (k, v) :: rest =>
      match serializeValue v with
      | .error e => .error e
      | .ok t =>
          match serializeValueEntries rest with
          | .error e => .error e
          | .ok ts => .ok ((k, t) :: ts)

end

/-- `HashMap::insert`: replace the binding of an existing key, else
append the new binding. -/
def hmInsert {α : Type} : List (String × α) → String → α → List (String × α)
  | [], key, nv => [(key, nv)]
  | (k, v) :: rest, key, nv =>
      if k == key then (k, nv) :: rest else (k, v) :: hmInsert rest key nv

/-- The `HashMap` built by inserting a pair list in order
(`ValueVisitor::visit_map`'s loop). -/
def hmFromList {α : Type} (l : List (String × α)) : List (String × α) :=
  l.foldl (fun acc kv => hmInsert acc kv.1 kv.2) []

/-- `ValueVisitor::visit_bytes` (`src/types/value.rs` lines 153-181):
the first byte is the mime length; reject a length past the payload or
non-UTF-8 mime bytes; the remainder is the blob data. -/
def visitBytes (v : List Nat) : Except DeError Value :=
  match v with
  | [] => .error (.invalidLength 0)
  | strLen :: rest =>
      if strLen ≤ rest.length then
        match utf8DecodeString? (rest.take strLen) with
        | some mime => .ok (.blob mime (rest.drop strLen))
        | none => .error (.invalidValue "non utf-8 value")
      else .error (.invalidLength (v.length))

mutual

/-- `ValueVisitor` (`src/types/value.rs` lines 71-207): dispatch of the
self-describing decoder onto the visitor methods. `visit_u64` rejects
values above `i64::MAX`; sequences and maps recurse; byte strings parse
as blobs. -/
def deserializeToken : Token → Except DeError Value
  | .i64 v => .ok (.integer v)
  | .u64 v =>
      if v ≤ 2 ^ 63 - 1 then .ok (.integer (Int.ofNat v))
      else .error (.invalidType "u64 above the i64 range")
  | .f64 b => .ok (.float b)
  | .bool b => .ok (.bool b)
  | .str s => .ok (.str s)
  | .bytes bs => visitBytes bs
  | .seq toks =>
      match deserializeTokenList toks with
      | .ok vs => .ok (.array vs)
      | .error e => .error e
  | .map entries =>
      match deserializeTokenEntries entries with
      | .ok es => .ok (.map (hmFromList es))
      | .error e => .error e

/-- `visit_seq`'s loop: deserialize each element in order. -/
def deserializeTokenList : List Token → Except DeError (List Value)
  | [] => .ok []
  | t :: ts =>
      match deserializeToken t with
      | .error e => .error e
      | .ok v =>
          match deserializeTokenList ts with
          | .error e => .error e
          | .ok vs => .ok (v :: vs)

/-- `visit_map`'s entry loop: deserialize each value in order. -/
def deserializeTokenEntries : List (String × Token) → Except DeError (List (String × Value))
  | [] => .ok []
  | (k, t) :: rest =>
      match deserializeToken t with
      | .error e => .error e
      | .ok v =>
          match deserializeTokenEntries rest with
          | .error e => .error e
          | .ok es => .ok ((k, v) :: es)

end

/-- The success precondition of `apply_insert` on a non-empty path,
split into the resolved parent (prefix of the path) and the final
element: a map parent with a vacant field, or an array parent whose
length admits the index. -/
def insertPrecondition (v : Value) (pre : List PathElement) (last : PathElement) : Bool :=
  match Value.get v pre, last with
  | some (.map entries), .field name => (hmLookup entries name).isNone
  | some (.array elems), .index i => decide (i ≤ elems.length)
  | _, _ => false

/-- No key occurs twice in the association list. -/
def keysDistinct {α : Type} : List (String × α) → Bool
  | [] => true
  | (k, _) :: rest => (hmLookup rest k).isNone && keysDistinct rest

mutual

/-- The `HashMap` type invariant made explicit on the association-list
model: every map in the value binds each key at most once. -/
def wellFormedValue : Value → Bool
  | .array elems => wellFormedList elems
  | .map entries => keysDistinct entries && wellFormedEntries entries
  | _ => true

/-- `wellFormedValue` over array elements. -/
def wellFormedList : List Value → Bool
  | [] => true
  | v :: vs => wellFormedValue v && wellFormedList vs

/-- `wellFormedValue` over map entries. -/
def wellFormedEntries : List (String × Value) → Bool
  | [] => true
  | (_, v) :: rest => wellFormedValue v && wellFormedEntries rest

end

mutual

/-- Every blob in the value has a mime whose UTF-8 byte length is at
most 255 (the serializable precondition of C6). -/
def mimeOkValue : Value → Bool
  | .blob mime _ => decide ((utf8Bytes mime).length ≤ 255)
  | .array elems => mimeOkList elems
  | .map entries => mimeOkEntries entries
  | _ => true

/-- `mimeOkValue` over array elements. -/
def mimeOkList : List Value → Bool
  | [] => true
  | v :: vs => mimeOkValue v && mimeOkList vs

/-- `mimeOkValue` over map entries. -/
def mimeOkEntries : List (String × Value) → Bool
  | [] => true
  | (_, v) :: rest => mimeOkValue v && mimeOkEntries rest

end

/-! ## Helper lemmas -/

theorem btLookup_btInsert_self {α : Type} (l : List (Nat × α)) (k : Nat) (v : α) :
    btLookup (btInsert l k v) k = some v := by
  induction l with
  | nil => simp [btInsert, btLookup]
  | cons hd tl ih =>
      obtain ⟨k', v'⟩ := hd
      by_cases h1 : k < k'
      · simp [btInsert, btLookup, h1]
      · by_cases h2 : k = k'
        · simp [btInsert, btLookup, h1, h2]
        · simp only [btInsert, if_neg h1, if_neg h2, btLookup, if_neg h2]
          exact ih

theorem hmLookup_hmSet_self {α : Type} (l : List (String × α)) (k : String) (x : α) :
    hmLookup l k ≠ none → hmLookup (hmSet l k x) k = some x := by
  induction l with
  | nil => simp [hmLookup]
  | cons hd tl ih =>
      obtain ⟨k', v'⟩ := hd
      by_cases h : k' == k
      · simp [hmLookup, hmSet, h]
      · simp only [hmLookup, hmSet, h, if_false, Bool.false_eq_true]
        exact ih

theorem hmSet_lookup_self {α : Type} (l : List (String × α)) (k : String) (e : α)
    (h : hmLookup l k = some e) : hmSet l k e = l := by
  induction l with
  | nil => simp [hmLookup] at h
  | cons hd tl ih =>
      obtain ⟨k', v'⟩ := hd
      by_cases hk : k' == k
      · simp only [hmLookup, hk, if_true] at h
        cases h
        simp [hmSet, hk]
      · simp only [hmLookup, hk, Bool.false_eq_true, if_false] at h
        simp [hmSet, hk, ih h]

theorem hmLookup_append_of_none {α : Type} (l1 l2 : List (String × α)) (k : String)
    (h : hmLookup l1 k = none) : hmLookup (l1 ++ l2) k = hmLookup l2 k := by
  induction l1 with
  | nil => simp
  | cons hd tl ih =>
      obtain ⟨k', v'⟩ := hd
      by_cases hk : k' == k
      · simp [hmLookup, hk] at h
      · simp only [hmLookup, hk, Bool.false_eq_true, if_false] at h
        simpa [hmLookup, hk] using ih h

theorem list_set_self {α : Type} (l : List α) (i : Nat) (e : α)
    (h : l[i]? = some e) : l.set i e = l := by
  induction l generalizing i with
  | nil => simp at h
  | cons hd tl ih =>
      cases i with
      | zero => simp_all
      | succ j =>
          simp only [List.getElem?_cons_succ] at h
          simp [List.set, ih j h]

theorem modifyGo_of_get_none (f : Value → Option Value) (p : List PathElement) :
    ∀ v : Value, Value.get v p = none → Value.modifyGo f v p = none := by
  induction p with
  | nil => intro v h; simp [Value.get] at h
  | cons el next ih =>
      intro v h
      cases el with
      | field name =>
          cases v <;> try rfl
          case map entries =>
            simp only [Value.get] at h
            simp only [Value.modifyGo]
            cases hl : hmLookup entries name with
            | none => rfl
            | some e =>
                rw [hl] at h
                dsimp only at h ⊢
                rw [ih e h]
                rfl
      | index i =>
          cases v <;> try rfl
          case array elems =>
            simp only [Value.get] at h
            simp only [Value.modifyGo]
            cases hl : elems[i]? with
            | none => rfl
            | some e =>
                rw [hl] at h
                dsimp only at h ⊢
                rw [ih e h]
                rfl

theorem modifyGo_fail (f : Value → Option Value) (p : List PathElement) :
    ∀ (v cur : Value), Value.get v p = some cur → f cur = none →
      Value.modifyGo f v p = none := by
  induction p with
  | nil =>
      intro v cur h hf
      simp only [Value.get, Option.some.injEq] at h
      subst h
      simpa [Value.modifyGo] using hf
  | cons el next ih =>
      intro v cur h hf
      cases el with
      | field name =>
          cases v <;> try exact Option.noConfusion h
          case map entries =>
            simp only [Value.get] at h
            simp only [Value.modifyGo]
            cases hl : hmLookup entries name with
            | none => rfl
            | some e =>
                rw [hl] at h
                dsimp only at h ⊢
                rw [ih e cur h hf]
                rfl
      | index i =>
          cases v <;> try exact Option.noConfusion h
          case array elems =>
            simp only [Value.get] at h
            simp only [Value.modifyGo]
            cases hl : elems[i]? with
            | none => rfl
            | some e =>
                rw [hl] at h
                dsimp only at h ⊢
                rw [ih e cur h hf]
                rfl

theorem modifyGo_ok (f : Value → Option Value) (p : List PathElement) :
    ∀ (v cur w : Value), Value.get v p = some cur → f cur = some w →
      ∃ v', Value.modifyGo f v p = some v' ∧ Value.get v' p = some w := by
  induction p with
  | nil =>
      intro v cur w h hf
      simp only [Value.get, Option.some.injEq] at h
      subst h
      refine ⟨w, by simpa [Value.modifyGo] using hf, ?_⟩
      cases w <;> rfl
  | cons el next ih =>
      intro v cur w h hf
      cases el with
      | field name =>
          cases v <;> try exact Option.noConfusion h
          case map entries =>
            simp only [Value.get] at h
            cases hl : hmLookup entries name with
            | none => rw [hl] at h; cases h
            | some e =>
                rw [hl] at h
                dsimp only at h
                obtain ⟨e', he', hg⟩ := ih e cur w h hf
                refine ⟨.map (hmSet entries name e'), ?_, ?_⟩
                · simp [Value.modifyGo, hl, he']
                · simp only [Value.get, hmLookup_hmSet_self entries name e' (by simp [hl]), hg]
      | index i =>
          cases v <;> try exact Option.noConfusion h
          case array elems =>
            simp only [Value.get] at h
            cases hl : elems[i]? with
            | none => rw [hl] at h; cases h
            | some e =>
                rw [hl] at h
                dsimp only at h
                obtain ⟨e', he', hg⟩ := ih e cur w h hf
                refine ⟨.array (elems.set i e'), ?_, ?_⟩
                · simp [Value.modifyGo, hl, he']
                · have hlt : i < elems.length := by
                    obtain ⟨hlt, -⟩ := List.getElem?_eq_some.mp hl
                    exact hlt
                  simp only [Value.get]
                  rw [List.getElem?_set_self' ]
                  · simp [hlt, hg]

theorem get_append (p q : List PathElement) :
    ∀ v : Value, Value.get v (p ++ q) = (Value.get v p).bind (fun u => Value.get u q) := by
  induction p with
  | nil => intro v; simp [Value.get]
  | cons el next ih =>
      intro v
      cases el with
      | field name =>
          cases v <;> try rfl
          case map entries =>
            simp only [List.cons_append, Value.get]
            cases hl : hmLookup entries name with
            | none => rfl
            | some e => exact ih e
      | index i =>
          cases v <;> try rfl
          case array elems =>
            simp only [List.cons_append, Value.get]
            cases hl : elems[i]? with
            | none => rfl
            | some e => exact ih e

theorem hashCmp_eq_iff (a b : List Nat) : hashCmp a b = .eq ↔ a = b := by
  induction a generalizing b with
  | nil => cases b <;> simp [hashCmp]
  | cons x xs ih =>
      cases b with
      | nil => simp [hashCmp]
      | cons y ys =>
          simp only [hashCmp]
          rcases h : compare x y with hlt | heq | hgt
          · simp only [List.cons.injEq]
            have : x ≠ y := by
              intro hxy
              rw [hxy, Nat.compare_eq_eq.mpr rfl] at h
              cases h
            simp [this]
          · have hxy : x = y := Nat.compare_eq_eq.mp h
            simp [hxy, ih]
          · have : x ≠ y := by
              intro hxy
              rw [hxy, Nat.compare_eq_eq.mpr rfl] at h
              cases h
            simp [this]

theorem hashCmp_gt_iff (a b : List Nat) : hashCmp a b = .gt ↔ hashCmp b a = .lt := by
  induction a generalizing b with
  | nil => cases b <;> simp [hashCmp]
  | cons x xs ih =>
      cases b with
      | nil => simp [hashCmp]
      | cons y ys =>
          simp only [hashCmp]
          rcases h : compare x y with _ | _ | _
          · have := Nat.compare_eq_lt.mp h
            rw [Nat.compare_eq_gt.mpr this]
            simp
          · have hxy : x = y := Nat.compare_eq_eq.mp h
            rw [hxy, Nat.compare_eq_eq.mpr rfl]
            exact ih ys
          · have := Nat.compare_eq_gt.mp h
            rw [Nat.compare_eq_lt.mpr this]
            simp

theorem modifyGo_some_id (p : List PathElement) :
    ∀ (v cur : Value), Value.get v p = some cur → Value.modifyGo some v p = some v := by
  induction p with
  | nil =>
      intro v cur h
      cases v <;> rfl
  | cons el next ih =>
      intro v cur h
      cases el with
      | field name =>
          cases v <;> try exact Option.noConfusion h
          case map entries =>
            simp only [Value.get] at h
            cases hl : hmLookup entries name with
            | none => rw [hl] at h; cases h
            | some e =>
                rw [hl] at h
                dsimp only at h
                simp only [Value.modifyGo, hl, ih e cur h]
                simp [hmSet_lookup_self entries name e hl]
      | index i =>
          cases v <;> try exact Option.noConfusion h
          case array elems =>
            simp only [Value.get] at h
            cases hl : elems[i]? with
            | none => rw [hl] at h; cases h
            | some e =>
                rw [hl] at h
                dsimp only at h
                simp only [Value.modifyGo, hl, ih e cur h]
                simp [list_set_self elems i e hl]

theorem get_nil (v : Value) : Value.get v [] = some v := by
  cases v <;> rfl

theorem getMutView_eq_get (p : List PathElement) :
    ∀ v : Value, Value.getMutView v p = Value.get v p := by
  induction p with
  | nil => intro v; cases v <;> rfl
  | cons el next ih =>
      intro v
      cases el with
      | field name =>
          cases v <;> try rfl
          case map entries =>
            simp only [Value.getMutView, Value.get]
            cases hmLookup entries name with
            | none => rfl
            | some e => exact ih e
      | index i =>
          cases v <;> try rfl
          case array elems =>
            simp only [Value.getMutView, Value.get]
            cases elems[i]? with
            | none => rfl
            | some e => exact ih e

/-! ## Claim theorems -/

/-- C1: the claim says `check_conflicts_common_ancestor` on disjoint
change sets returns `Resolved` with the concatenation applied to the
ancestor; the source body is the literal `None`, so the function returns
`none` on every input, in particular on the disjoint failing input
`ancestor = Map {}`, `C1 = [Insert ["a"] 1]`, `C2 = [Insert ["b"] 2]`. -/
theorem checkConflictsCommonAncestor_always_none
    (ancestor : Value) (c1 c2 : List ChangeContent) :
    checkConflictsCommonAncestor ancestor c1 c2 = none := rfl

/-- C9: `apply_delete` with an empty path always fails with
`InvalidChange` carrying the `Delete` change rebuilt from the full path,
and leaves the value unchanged: the delete primitive can never remove
the document root. -/
theorem applyDelete_empty_path (v old : Value) (fullPath : List PathElement) :
    applyDelete v [] old fullPath = (v, some (.invalidChange (.delete fullPath old))) := rfl

/-- C4 counterexample: for `offsets = {0 ↦ 1}` and `i = 2` the greatest
key ≤ 2 is 0 with stored shift 1, so the claim predicts the stored value
1 + 1 = 2 at key 2, but `increase_offset` stores 4. -/
theorem increaseOffset_claim_counterexample :
    (([((0 : Nat), (1 : Nat))].filter (fun p => p.1 ≤ 2)).getLast? = some (0, 1)) ∧
    increaseOffset [(0, 1)] 2 = [(0, 1), (2, 4)] ∧
    btLookup (increaseOffset [(0, 1)] 2) 2 = some 4 ∧ (4 : Nat) ≠ 1 + 1 := by
  refine ⟨rfl, rfl, rfl, by decide⟩

/-- C4 (amended): after `increase_offset(offsets, i)` the value stored
at key `i` is, in `u32` arithmetic, the cumulative shift stored at the
greatest key `point ≤ i` plus `(i - point)` plus one, or `i + 1` when no
key ≤ `i` exists. -/
theorem increaseOffset_stored_value (offsets : List (Nat × Nat)) (i : Nat) :
    btLookup (increaseOffset offsets i) i =
      some (match (offsets.filter (fun p => p.1 ≤ i)).getLast? with
        | some (point, val) => (val + (i - point) + 1) % 2 ^ 32
        | none => (i + 1) % 2 ^ 32) := by
  unfold increaseOffset
  rcases h : (offsets.filter (fun p => p.1 ≤ i)).getLast? with - | ⟨point, val⟩ <;>
    rw [h] <;> exact btLookup_btInsert_self ..

/-- C7: `Parents::one` always succeeds; `Parents::two` on equal hashes
is the domain error `ParentHashSame`, and on distinct hashes stores the
lexicographically smaller hash first regardless of argument order. -/
theorem parents_one_two_spec (h p1 p2 : Hash) :
    Parents.one h = .ok (.One h) ∧
    (p1 = p2 → Parents.two p1 p2 = .error .parentHashSame) ∧
    (p1 ≠ p2 → ∃ a b, hashCmp a b = .lt ∧
       ((a = p1 ∧ b = p2) ∨ (a = p2 ∧ b = p1)) ∧
       Parents.two p1 p2 = .ok (.Two a b) ∧ Parents.two p2 p1 = .ok (.Two a b)) := by
  refine ⟨rfl, ?_, ?_⟩
  · intro he
    subst he
    unfold Parents.two
    rw [(hashCmp_eq_iff p1 p1).mpr rfl]
  · intro hne
    rcases hc : hashCmp p1 p2 with - | - | -
    · refine ⟨p1, p2, hc, .inl ⟨rfl, rfl⟩, ?_, ?_⟩
      · unfold Parents.two
        rw [hc]
      · unfold Parents.two
        rw [(hashCmp_gt_iff p2 p1).mpr hc]
    · exact absurd ((hashCmp_eq_iff p1 p2).mp hc) hne
    · have hlt : hashCmp p2 p1 = .lt := (hashCmp_gt_iff p1 p2).mp hc
      refine ⟨p2, p1, hlt, .inr ⟨rfl, rfl⟩, ?_, ?_⟩
      · unfold Parents.two
        rw [hc]
      · unfold Parents.two
        rw [hlt]

/-- C7 witness: concrete instances of every hypothesis of
`parents_one_two_spec`. -/
theorem parents_one_two_spec_witness :
    Parents.one [(0 : Nat)] = .ok (.One [0]) ∧
    Parents.two [(5 : Nat)] [5] = .error .parentHashSame ∧
    (∃ a b, hashCmp a b = .lt ∧
       ((a = [(1 : Nat)] ∧ b = [2]) ∨ (a = [2] ∧ b = [1])) ∧
       Parents.two [1] [2] = .ok (.Two a b) ∧ Parents.two [2] [1] = .ok (.Two a b)) :=
  ⟨(parents_one_two_spec [0] [5] [5]).1,
   (parents_one_two_spec [0] [5] [5]).2.1 rfl,
   (parents_one_two_spec [0] [1] [2]).2.2 (by decide)⟩

/-- C8: `Parents` serializes as the sequence of stored hashes in stored
order, so `Parents::two(h_big, h_small)` encodes as
`[h_small, h_big]`; deserializing two hashes succeeds exactly when they
are strictly ascending (else the "parents not ordered" custom error),
and sequences of length 0 or more than 2 are length errors. -/
theorem parents_serde_spec (h h1 h2 hs hb : Hash) (l : List Hash) :
    serializeParents (.One h) = [h] ∧
    serializeParents (.Two h1 h2) = [h1, h2] ∧
    (hashCmp hs hb = .lt →
       Parents.two hb hs = .ok (.Two hs hb) ∧ serializeParents (.Two hs hb) = [hs, hb]) ∧
    (deserializeParentsSeq [h1, h2] =
       if hashCmp h1 h2 = .lt then .ok (.Two h1 h2)
       else .error (.custom "parents not ordered")) ∧
    deserializeParentsSeq [] = .error (.invalidLength 0) ∧
    (2 < l.length → ∃ n, deserializeParentsSeq l = .error (.invalidLength n)) := by
  refine ⟨rfl, rfl, ?_, ?_, rfl, ?_⟩
  · intro hlt
    constructor
    · unfold Parents.two
      rw [(hashCmp_gt_iff hb hs).mpr hlt]
    · rfl
  · simp only [deserializeParentsSeq]
  · intro hlen
    match l with
    | a :: b :: c :: rest => exact ⟨(c :: rest).length, rfl⟩

/-- C8 witness: concrete instances of the conditional parts of
`parents_serde_spec`. -/
theorem parents_serde_spec_witness :
    (Parents.two [(2 : Nat)] [1] = .ok (.Two [1] [2]) ∧
       serializeParents (.Two [(1 : Nat)] [2]) = [[1], [2]]) ∧
    (∃ n, deserializeParentsSeq [[(1 : Nat)], [2], [3]] = .error (.invalidLength n)) :=
  ⟨(parents_serde_spec [0] [1] [2] [1] [2] []).2.2.1 (by decide),
   (parents_serde_spec [0] [1] [2] [1] [2] [[1], [2], [3]]).2.2.2.2.2 (by decide)⟩

/-- C10: `get_mut` resolves exactly when `get` does, with the same
value behind the reference, and the copy-on-write unsharing pass
(descend with `Arc::make_mut` and write nothing) leaves the root value
unchanged. -/
theorem getMut_spec (v : Value) (p : List PathElement) :
    Value.getMutView v p = Value.get v p ∧
    (∀ cur, Value.get v p = some cur → Value.unshareAt v p = some v) :=
  ⟨getMutView_eq_get p v, fun cur h => modifyGo_some_id p v cur h⟩

/-- C10 witness: `getMut_spec` evaluated at a concrete value and path. -/
theorem getMut_spec_witness :
    Value.getMutView (.map [("a", .integer 1)]) [.field "a"] =
      Value.get (.map [("a", .integer 1)]) [.field "a"] ∧
    Value.unshareAt (.map [("a", .integer 1)]) [.field "a"] =
      some (.map [("a", .integer 1)]) :=
  ⟨(getMut_spec (.map [("a", .integer 1)]) [.field "a"]).1,
   (getMut_spec (.map [("a", .integer 1)]) [.field "a"]).2 (.integer 1) rfl⟩

/-- C2: `apply_replace` succeeds and overwrites the value at the path
with `new` exactly when the path resolves and the existing value equals
`old` under NaN-equal equality; otherwise it returns `InvalidChange`
carrying the original `Replace` change with the full path and leaves the
value unchanged. -/
theorem applyReplace_spec (v old nw : Value) (p fp : List PathElement) :
    (∀ cur, Value.get v p = some cur → valueEq old cur = true →
       ∃ v', applyReplace v p old nw fp = (v', none) ∧ Value.get v' p = some nw) ∧
    (Value.get v p = none →
       applyReplace v p old nw fp = (v, some (.invalidChange (.replace fp old nw)))) ∧
    (∀ cur, Value.get v p = some cur → valueEq old cur = false →
       applyReplace v p old nw fp = (v, some (.invalidChange (.replace fp old nw)))) := by
  refine ⟨?_, ?_, ?_⟩
  · intro cur h heq
    have hf : (fun cur => if valueEq old cur then some nw else none) cur = some nw := by
      simp [heq]
    obtain ⟨v', hm, hg⟩ :=
      modifyGo_ok (fun cur => if valueEq old cur then some nw else none) p v cur nw h hf
    refine ⟨v', ?_, hg⟩
    unfold applyReplace
    rw [hm]
  · intro h
    unfold applyReplace
    rw [modifyGo_of_get_none _ p v h]
  · intro cur h heq
    have hf : (fun cur => if valueEq old cur then some nw else none) cur = none := by
      simp [heq]
    unfold applyReplace
    rw [modifyGo_fail _ p v cur h hf]

/-- C2 witness: `applyReplace_spec` at the spec's E2 scenario (the value
`Map{a: 1}`): replacing with a wrong `old` fails and leaves the value
unchanged, replacing with the right `old` succeeds. -/
theorem applyReplace_spec_witness :
    applyReplace (.map [("a", .integer 1)]) [.field "a"] (.integer 2) (.integer 3) [.field "a"] =
      (.map [("a", .integer 1)],
        some (.invalidChange (.replace [.field "a"] (.integer 2) (.integer 3)))) ∧
    (∃ v', applyReplace (.map [("a", .integer 1)]) [.field "a"] (.integer 1) (.integer 3)
        [.field "a"] = (v', none) ∧ Value.get v' [.field "a"] = some (.integer 3)) :=
  ⟨(applyReplace_spec (.map [("a", .integer 1)]) (.integer 2) (.integer 3)
      [.field "a"] [.field "a"]).2.2 (.integer 1) rfl rfl,
   (applyReplace_spec (.map [("a", .integer 1)]) (.integer 1) (.integer 3)
      [.field "a"] [.field "a"]).1 (.integer 1) rfl rfl⟩

/-- C3: on a non-empty path, `apply_insert` succeeds exactly when the
parent at the path prefix resolves and is a map with the final field
vacant (bound to the value) or an array whose length is at least the
final index (shift right and insert); in every other case it returns
`InvalidChange` and the value is unchanged. -/
theorem applyInsert_spec (v val : Value) (p fp : List PathElement) (hne : p ≠ []) :
    (∀ entries name, Value.get v p.dropLast = some (.map entries) →
       p.getLast hne = .field name → hmLookup entries name = none →
       ∃ v', applyInsert v p val fp = (v', none) ∧
         Value.get v' p.dropLast = some (.map (entries ++ [(name, val)])) ∧
         Value.get v' p = some val) ∧
    (∀ elems i, Value.get v p.dropLast = some (.array elems) →
       p.getLast hne = .index i → i ≤ elems.length →
       ∃ v', applyInsert v p val fp = (v', none) ∧
         Value.get v' p.dropLast = some (.array (elems.insertIdx i val))) ∧
    (insertPrecondition v p.dropLast (p.getLast hne) = false →
       applyInsert v p val fp = (v, some (.invalidChange (.insert fp val)))) := by
  have hlast : p.getLast? = some (p.getLast hne) := List.getLast?_eq_getLast p hne
  refine ⟨?_, ?_, ?_⟩
  · intro entries name hpre hl hvac
    have hf : insertHere val (p.getLast hne) (.map entries) =
        some (.map (entries ++ [(name, val)])) := by
      rw [hl]
      simp [insertHere, hvac]
    obtain ⟨v', hm, hg⟩ := modifyGo_ok _ p.dropLast v _ _ hpre hf
    refine ⟨v', ?_, hg, ?_⟩
    · unfold applyInsert
      rw [hlast]
      dsimp only
      rw [hm]
    · conv_lhs => rw [← List.dropLast_append_getLast hne]
      rw [get_append p.dropLast [p.getLast hne] v', hg, hl]
      dsimp only [Option.bind]
      simp only [Value.get]
      rw [hmLookup_append_of_none entries [(name, val)] name hvac]
      simp [hmLookup, get_nil]
  · intro elems i hpre hl hlen
    have hf : insertHere val (p.getLast hne) (.array elems) =
        some (.array (elems.insertIdx i val)) := by
      rw [hl]
      simp only [insertHere]
      rw [if_neg (by omega)]
    obtain ⟨v', hm, hg⟩ := modifyGo_ok _ p.dropLast v _ _ hpre hf
    refine ⟨v', ?_, hg⟩
    unfold applyInsert
    rw [hlast]
    dsimp only
    rw [hm]
  · intro hfail
    unfold applyInsert
    rw [hlast]
    dsimp only
    cases hpre : Value.get v p.dropLast with
    | none => rw [modifyGo_of_get_none _ p.dropLast v hpre]
    | some parent =>
        have hf : insertHere val (p.getLast hne) parent = none := by
          unfold insertPrecondition at hfail
          rw [hpre] at hfail
          cases parent with
          | map entries =>
              cases hl : p.getLast hne with
              | field name =>
                  rw [hl] at hfail
                  dsimp only at hfail
                  cases hvac : hmLookup entries name with
                  | none => rw [hvac] at hfail; simp at hfail
                  | some x => simp [insertHere, hvac]
              | index j => simp [insertHere]
          | array elems =>
              cases hl : p.getLast hne with
              | field name => simp [insertHere]
              | index j =>
                  rw [hl] at hfail
                  dsimp only at hfail
                  simp only [decide_eq_false_iff_not, Nat.not_le] at hfail
                  simp only [insertHere]
                  rw [if_pos hfail]
          | integer n => simp [insertHere]
          | float b => simp [insertHere]
          | bool b => simp [insertHere]
          | str s => simp [insertHere]
          | blob m d => simp [insertHere]
        rw [modifyGo_fail _ p.dropLast v parent hpre hf]

/-- C3 witness: `applyInsert_spec` at the spec's E1 and E3 scenarios
(map insert into `Map{}`, array insert into `["a", "c"]`) and a failing
duplicate-key insert. -/
theorem applyInsert_spec_witness :
    (∃ v', applyInsert (.map []) [.field "a"] (.integer 1) [.field "a"] = (v', none) ∧
       Value.get v' [] = some (.map [("a", .integer 1)]) ∧
       Value.get v' [.field "a"] = some (.integer 1)) ∧
    (∃ v', applyInsert (.array [.str "a", .str "c"]) [.index 1] (.str "b") [.index 1] =
        (v', none) ∧
       Value.get v' [] = some (.array [.str "a", .str "b", .str "c"])) ∧
    applyInsert (.map [("a", .integer 1)]) [.field "a"] (.integer 2) [.field "a"] =
      (.map [("a", .integer 1)],
        some (.invalidChange (.insert [.field "a"] (.integer 2)))) := by
  refine ⟨?_, ?_, ?_⟩
  · exact (applyInsert_spec (.map []) (.integer 1) [.field "a"] [.field "a"]
      (by decide)).1 [] "a" rfl rfl rfl
  · exact (applyInsert_spec (.array [.str "a", .str "c"]) (.str "b") [.index 1] [.index 1]
      (by decide)).2.1 [.str "a", .str "c"] 1 rfl rfl (by decide)
  · exact (applyInsert_spec (.map [("a", .integer 1)]) (.integer 2) [.field "a"] [.field "a"]
      (by decide)).2.2 rfl

/-- C5: adding an `Insert` whose remaining path is empty to a `Remove`
leaf promotes it to `Replace { old, new := value }` with both change
lists kept in order; in particular the tree built from
`[Delete ["k"] old=1, Insert ["k"] value=2]` is one `Replace` leaf under
key `"k"` with old `1`, new `2`, and both changes retained. -/
theorem addChangeInsert_reinsert_promotes (old : Value) (changes : List ChangeContent)
    (path : List PathElement) (value : Value) (index : Nat)
    (h : path[index]? = none) :
    ChangeTree.addChangeInsert (.remove old changes) path value index =
      (.replace old value (changes ++ [.insert path value]), none) ∧
    ChangeTree.construct
        [.delete [.field "k"] (.integer 1), .insert [.field "k"] (.integer 2)] =
      some (.ok (some (.map [("k", .replace (.integer 1) (.integer 2)
        [.delete [.field "k"] (.integer 1), .insert [.field "k"] (.integer 2)])]))) := by
  constructor
  · unfold ChangeTree.addChangeInsert
    have hd : path.drop index = [] := by
      rw [List.drop_eq_nil_iff]
      exact List.getElem?_eq_none_iff.mp h
    rw [hd]
    rfl
  · rfl

/-- C5 witness: the promotion applied at a concrete `Remove` leaf whose
remaining path is empty, next to the concrete two-change scenario. -/
theorem addChangeInsert_reinsert_promotes_witness :
    ChangeTree.addChangeInsert (.remove (.integer 1) [.delete [.field "k"] (.integer 1)])
        [.field "k"] (.integer 2) 1 =
      (.replace (.integer 1) (.integer 2)
        [.delete [.field "k"] (.integer 1), .insert [.field "k"] (.integer 2)], none) ∧
    ChangeTree.construct
        [.delete [.field "k"] (.integer 1), .insert [.field "k"] (.integer 2)] =
      some (.ok (some (.map [("k", .replace (.integer 1) (.integer 2)
        [.delete [.field "k"] (.integer 1), .insert [.field "k"] (.integer 2)])]))) :=
  ⟨(addChangeInsert_reinsert_promotes (.integer 1) [.delete [.field "k"] (.integer 1)]
      [.field "k"] (.integer 2) 1 rfl).1,
   (addChangeInsert_reinsert_promotes (.integer 1) [.delete [.field "k"] (.integer 1)]
      [.field "k"] (.integer 2) 1 rfl).2⟩

theorem decodeUtf8_cons (b : Nat) (rest : List Nat) :
    decodeUtf8 (b :: rest) = match decodeCharUtf8 b rest with
      | some (n, k) => (decodeUtf8 (rest.drop k)).map (Char.ofNat n :: ·)
      | none => none := by
  rw [decodeUtf8]

theorem decodeUtf8_encodeCharUtf8_append (c : Char) (tail : List Nat) (cs : List Char)
    (ih : decodeUtf8 tail = some cs) :
    decodeUtf8 (encodeCharUtf8 c ++ tail) = some (c :: cs) := by
  have hval : c.toNat < 0xd800 ∨ (0xdfff < c.toNat ∧ c.toNat < 0x110000) := c.valid
  have hofn : Char.ofNat c.toNat = c := Char.ofNat_toNat c
  obtain ⟨n, hn⟩ : ∃ n, c.toNat = n := ⟨c.toNat, rfl⟩
  rw [hn] at hval hofn
  by_cases h1 : n < 0x80
  · have henc : encodeCharUtf8 c = [n] := by
      simp only [encodeCharUtf8, hn]
      rw [if_pos h1]
    have hdec : decodeCharUtf8 n tail = some (n, 0) := by
      unfold decodeCharUtf8
      rw [if_pos h1]
    rw [henc]
    simp only [List.cons_append, List.nil_append]
    rw [decodeUtf8_cons, hdec]
    simp [ih, hofn]
  · by_cases h2 : n < 0x800
    · have henc : encodeCharUtf8 c = [0xC0 + n / 64, 0x80 + n % 64] := by
        simp only [encodeCharUtf8, hn]
        rw [if_neg h1, if_pos h2]
      have hdec : decodeCharUtf8 (0xC0 + n / 64) ((0x80 + n % 64) :: tail) = some (n, 1) := by
        simp only [decodeCharUtf8, utf8IsCont]
        rw [if_neg (by omega), if_neg (by omega), if_pos (by omega)]
        rw [if_pos (by simp only [Bool.and_eq_true, decide_eq_true_eq]; omega)]
        have e1 : 0xC0 + n / 64 - 0xC0 = n / 64 := by omega
        have e2 : 0x80 + n % 64 - 0x80 = n % 64 := by omega
        have harith : n / 64 * 64 + n % 64 = n := by omega
        simp only [e1, e2, harith]
        have hC : (0x80 : Nat) ≤ n := by omega
        rw [if_pos hC]
      rw [henc]
      simp only [List.cons_append, List.nil_append]
      rw [decodeUtf8_cons, hdec]
      simp [ih, hofn]
    · by_cases h3 : n < 0x10000
      · have henc : encodeCharUtf8 c = [0xE0 + n / 4096, 0x80 + n / 64 % 64, 0x80 + n % 64] := by
          simp only [encodeCharUtf8, hn]
          rw [if_neg h1, if_neg h2, if_pos h3]
        have hdec : decodeCharUtf8 (0xE0 + n / 4096)
            ((0x80 + n / 64 % 64) :: (0x80 + n % 64) :: tail) = some (n, 2) := by
          simp only [decodeCharUtf8, utf8IsCont]
          rw [if_neg (by omega), if_neg (by omega), if_neg (by omega), if_pos (by omega)]
          rw [if_pos (by simp only [Bool.and_eq_true, decide_eq_true_eq]; omega)]
          have hdd : n / 64 / 64 = n / 4096 := by rw [Nat.div_div_eq_div_mul]
          have e1 : 0xE0 + n / 4096 - 0xE0 = n / 4096 := by omega
          have e2 : 0x80 + n / 64 % 64 - 0x80 = n / 64 % 64 := by omega
          have e3 : 0x80 + n % 64 - 0x80 = n % 64 := by omega
          have harith : n / 4096 * 4096 + n / 64 % 64 * 64 + n % 64 = n := by omega
          simp only [e1, e2, e3, harith]
          have hC : (decide (0x800 ≤ n) && !(decide (0xD800 ≤ n) && decide (n < 0xE000))) =
              true := by
            simp
            omega
          rw [hC, if_pos rfl]
        rw [henc]
        simp only [List.cons_append, List.nil_append]
        rw [decodeUtf8_cons, hdec]
        simp [ih, hofn]
      · have h4 : n < 0x110000 := by rcases hval with h | ⟨-, h⟩ <;> omega
        have henc : encodeCharUtf8 c =
            [0xF0 + n / 262144, 0x80 + n / 4096 % 64, 0x80 + n / 64 % 64, 0x80 + n % 64] := by
          simp only [encodeCharUtf8, hn]
          rw [if_neg h1, if_neg h2, if_neg h3]
        have hdec : decodeCharUtf8 (0xF0 + n / 262144)
            ((0x80 + n / 4096 % 64) :: (0x80 + n / 64 % 64) :: (0x80 + n % 64) :: tail) =
            some (n, 3) := by
          simp only [decodeCharUtf8, utf8IsCont]
          rw [if_neg (by omega), if_neg (by omega), if_neg (by omega), if_neg (by omega),
            if_pos (by omega)]
          rw [if_pos (by simp only [Bool.and_eq_true, decide_eq_true_eq]; omega)]
          have hdd : n / 64 / 64 = n / 4096 := by rw [Nat.div_div_eq_div_mul]
          have hdd2 : n / 4096 / 64 = n / 262144 := by rw [Nat.div_div_eq_div_mul]
          have e1 : 0xF0 + n / 262144 - 0xF0 = n / 262144 := by omega
          have e2 : 0x80 + n / 4096 % 64 - 0x80 = n / 4096 % 64 := by omega
          have e3 : 0x80 + n / 64 % 64 - 0x80 = n / 64 % 64 := by omega
          have e4 : 0x80 + n % 64 - 0x80 = n % 64 := by omega
          have harith : n / 262144 * 262144 + n / 4096 % 64 * 4096 + n / 64 % 64 * 64 + n % 64 =
              n := by omega
          simp only [e1, e2, e3, e4, harith]
          have hC : (decide (0x10000 ≤ n) && decide (n < 0x110000)) = true := by
            simp
            omega
          rw [hC, if_pos rfl]
        rw [henc]
        simp only [List.cons_append, List.nil_append]
        rw [decodeUtf8_cons, hdec]
        simp [ih, hofn]



theorem decodeUtf8_encode_list : ∀ cs : List Char,
    decodeUtf8 ((cs.map encodeCharUtf8).flatten) = some cs := by
  intro cs
  induction cs with
  | nil =>
      rw [List.map_nil, List.flatten_nil]
      rw [decodeUtf8]
  | cons c cs ih =>
      rw [List.map_cons, List.flatten_cons]
      exact decodeUtf8_encodeCharUtf8_append c _ cs ih

theorem utf8DecodeString_utf8Bytes (s : String) :
    utf8DecodeString? (utf8Bytes s) = some s := by
  unfold utf8DecodeString? utf8Bytes
  rw [decodeUtf8_encode_list s.data]
  rfl

theorem hmLookup_ne_none_of_mem {α : Type} (l : List (String × α)) (k : String) (x : α)
    (h : (k, x) ∈ l) : hmLookup l k ≠ none := by
  induction l with
  | nil => cases h
  | cons hd tl ih =>
      obtain ⟨k', v'⟩ := hd
      rcases List.mem_cons.mp h with heq | hmem
      · rw [Prod.mk.injEq] at heq
        obtain ⟨rfl, rfl⟩ := heq
        simp [hmLookup]
      · by_cases hk : k' == k
        · simp [hmLookup, hk]
        · simp only [hmLookup, hk, Bool.false_eq_true, if_false]
          exact ih hmem

theorem hmLookup_self_of_distinct {α : Type} (l : List (String × α))
    (hd : keysDistinct l = true) : ∀ k x, (k, x) ∈ l → hmLookup l k = some x := by
  induction l with
  | nil => intro k x h; cases h
  | cons head tl ih =>
      obtain ⟨k', v'⟩ := head
      simp only [keysDistinct, Bool.and_eq_true, Option.isNone_iff_eq_none] at hd
      intro k x h
      rcases List.mem_cons.mp h with heq | hmem
      · rw [Prod.mk.injEq] at heq
        obtain ⟨rfl, rfl⟩ := heq
        simp [hmLookup]
      · by_cases hk : k' == k
        · exfalso
          have : k' = k := by simpa using hk
          subst this
          exact hmLookup_ne_none_of_mem tl k' x hmem hd.1
        · simp only [hmLookup, hk, Bool.false_eq_true, if_false]
          exact ih hd.2 k x hmem

theorem hmInsert_eq_append {α : Type} (l : List (String × α)) (k : String) (v : α)
    (h : hmLookup l k = none) : hmInsert l k v = l ++ [(k, v)] := by
  induction l with
  | nil => rfl
  | cons hd tl ih =>
      obtain ⟨k', v'⟩ := hd
      by_cases hk : k' == k
      · simp [hmLookup, hk] at h
      · simp only [hmLookup, hk, Bool.false_eq_true, if_false] at h
        simp [hmInsert, hk, ih h]

theorem hmFromList_aux {α : Type} : ∀ (l acc : List (String × α)),
    keysDistinct l = true → (∀ k x, (k, x) ∈ l → hmLookup acc k = none) →
    l.foldl (fun acc kv => hmInsert acc kv.1 kv.2) acc = acc ++ l := by
  intro l
  induction l with
  | nil => intro acc _ _; simp [List.foldl]
  | cons hd tl ih =>
      obtain ⟨k, v⟩ := hd
      intro acc hdist hnone
      simp only [keysDistinct, Bool.and_eq_true, Option.isNone_iff_eq_none] at hdist
      rw [List.foldl_cons]
      have hk : hmLookup acc k = none := hnone k v (List.mem_cons_self _ _)
      rw [hmInsert_eq_append acc k v hk]
      rw [ih (acc ++ [(k, v)]) hdist.2 ?_]
      · simp
      · intro k2 x2 hmem
        have hne : ¬(k == k2) := by
          intro hkk
          have : k = k2 := by simpa using hkk
          subst this
          exact hmLookup_ne_none_of_mem tl k x2 hmem hdist.1
        rw [hmLookup_append_of_none acc [(k, v)] k2 (hnone k2 x2 (List.mem_cons_of_mem _ hmem))]
        simp [hmLookup, hne]

theorem hmFromList_eq_self {α : Type} (l : List (String × α))
    (h : keysDistinct l = true) : hmFromList l = l := by
  unfold hmFromList
  rw [hmFromList_aux l [] h (fun _ _ _ => rfl)]
  simp



theorem value_sizeOf_pos (v : Value) : 0 < sizeOf v := by
  cases v <;> simp_arith

theorem valueEq_refl_aux : ∀ N : Nat,
    (∀ v : Value, sizeOf v ≤ N → wellFormedValue v = true → valueEq v v = true) ∧
    (∀ vs : List Value, sizeOf vs ≤ N → wellFormedList vs = true →
       valueListEq vs vs = true) ∧
    (∀ es m2 : List (String × Value), sizeOf es ≤ N → wellFormedEntries es = true →
       (∀ k x, (k, x) ∈ es → hmLookup m2 k = some x) → valueMapIncl es m2 = true) := by
  intro N
  induction N with
  | zero =>
      refine ⟨?_, ?_, ?_⟩
      · intro v h _
        have := value_sizeOf_pos v
        omega
      · intro vs h _
        have : 0 < sizeOf vs := by cases vs <;> simp_arith
        omega
      · intro es m2 h _ _
        have : 0 < sizeOf es := by cases es <;> simp_arith
        omega
  | succ N ih =>
      obtain ⟨ihv, ihl, ihe⟩ := ih
      refine ⟨?_, ?_, ?_⟩
      · intro v hsize hwf
        cases v with
        | integer a => simp [valueEq]
        | float b =>
            cases hb : f64IsNan b <;> simp [valueEq, hb, f64Beq]
        | bool b => simp [valueEq]
        | str s => simp [valueEq]
        | blob m d => simp [valueEq]
        | array elems =>
            simp only [valueEq]
            have hs : sizeOf elems ≤ N := by
              simp_arith at hsize
              omega
            exact ihl elems hs (by simpa [wellFormedValue] using hwf)
        | map entries =>
            simp only [valueEq, Bool.and_eq_true]
            have hwf' : keysDistinct entries = true ∧ wellFormedEntries entries = true := by
              simpa [wellFormedValue] using hwf
            refine ⟨by simp, ?_⟩
            have hs : sizeOf entries ≤ N := by
              simp_arith at hsize
              omega
            exact ihe entries entries hs hwf'.2
              (hmLookup_self_of_distinct entries hwf'.1)
      · intro vs hsize hwf
        cases vs with
        | nil => simp [valueListEq]
        | cons x xs =>
            simp only [valueListEq, Bool.and_eq_true]
            simp only [wellFormedList, Bool.and_eq_true] at hwf
            have h1 : sizeOf x ≤ N := by simp_arith at hsize; omega
            have h2 : sizeOf xs ≤ N := by simp_arith at hsize; omega
            exact ⟨ihv x h1 hwf.1, ihl xs h2 hwf.2⟩
      · intro es m2 hsize hwf hlk
        cases es with
        | nil => simp [valueMapIncl]
        | cons hd rest =>
            obtain ⟨k, x⟩ := hd
            simp only [valueMapIncl, Bool.and_eq_true]
            simp only [wellFormedEntries, Bool.and_eq_true] at hwf
            have h1 : sizeOf x ≤ N := by simp_arith at hsize; omega
            have h2 : sizeOf rest ≤ N := by simp_arith at hsize; omega
            constructor
            · rw [hlk k x (List.mem_cons_self _ _)]
              exact ihv x h1 hwf.1
            · exact ihe rest m2 h2 hwf.2
                (fun k2 x2 hm => hlk k2 x2 (List.mem_cons_of_mem _ hm))

theorem valueEq_refl (v : Value) (hwf : wellFormedValue v = true) : valueEq v v = true :=
  (valueEq_refl_aux (sizeOf v)).1 v (Nat.le_refl _) hwf



theorem roundtrip_aux : ∀ N : Nat,
    (∀ v : Value, sizeOf v ≤ N → wellFormedValue v = true → mimeOkValue v = true →
       ∃ t, serializeValue v = .ok t ∧ deserializeToken t = .ok v) ∧
    (∀ vs : List Value, sizeOf vs ≤ N → wellFormedList vs = true → mimeOkList vs = true →
       ∃ ts, serializeValueList vs = .ok ts ∧ deserializeTokenList ts = .ok vs) ∧
    (∀ es : List (String × Value), sizeOf es ≤ N → wellFormedEntries es = true →
       mimeOkEntries es = true →
       ∃ ts, serializeValueEntries es = .ok ts ∧ deserializeTokenEntries ts = .ok es) := by
  intro N
  induction N with
  | zero =>
      refine ⟨?_, ?_, ?_⟩
      · intro v h _ _
        have := value_sizeOf_pos v
        omega
      · intro vs h _ _
        have : 0 < sizeOf vs := by cases vs <;> simp_arith
        omega
      · intro es h _ _
        have : 0 < sizeOf es := by cases es <;> simp_arith
        omega
  | succ N ih =>
      obtain ⟨ihv, ihl, ihe⟩ := ih
      refine ⟨?_, ?_, ?_⟩
      · intro v hsize hwf hmime
        cases v with
        | integer a => exact ⟨.i64 a, by simp [serializeValue], by simp [deserializeToken]⟩
        | float b => exact ⟨.f64 b, by simp [serializeValue], by simp [deserializeToken]⟩
        | bool b => exact ⟨.bool b, by simp [serializeValue], by simp [deserializeToken]⟩
        | str s => exact ⟨.str s, by simp [serializeValue], by simp [deserializeToken]⟩
        | blob m d =>
            have hlen : (utf8Bytes m).length ≤ 255 := by
              simpa [mimeOkValue] using hmime
            refine ⟨.bytes ((utf8Bytes m).length :: (utf8Bytes m ++ d)), ?_, ?_⟩
            · simp only [serializeValue]
              rw [if_neg (by omega)]
            · simp only [deserializeToken, visitBytes]
              rw [if_pos (by simp)]
              rw [List.take_left, utf8DecodeString_utf8Bytes, List.drop_left]
        | array elems =>
            have hs : sizeOf elems ≤ N := by simp_arith at hsize; omega
            obtain ⟨ts, hser, hde⟩ := ihl elems hs (by simpa [wellFormedValue] using hwf)
              (by simpa [mimeOkValue] using hmime)
            refine ⟨.seq ts, ?_, ?_⟩
            · simp only [serializeValue, hser]
            · simp only [deserializeToken, hde]
        | map entries =>
            have hs : sizeOf entries ≤ N := by simp_arith at hsize; omega
            have hwf' : keysDistinct entries = true ∧ wellFormedEntries entries = true := by
              simpa [wellFormedValue] using hwf
            obtain ⟨ts, hser, hde⟩ := ihe entries hs hwf'.2
              (by simpa [mimeOkValue] using hmime)
            refine ⟨.map ts, ?_, ?_⟩
            · simp only [serializeValue, hser]
            · simp only [deserializeToken, hde]
              rw [hmFromList_eq_self entries hwf'.1]
      · intro vs hsize hwf hmime
        cases vs with
        | nil => exact ⟨[], by simp [serializeValueList], by simp [deserializeTokenList]⟩
        | cons x xs =>
            simp only [wellFormedList, Bool.and_eq_true] at hwf
            simp only [mimeOkList, Bool.and_eq_true] at hmime
            have h1 : sizeOf x ≤ N := by simp_arith at hsize; omega
            have h2 : sizeOf xs ≤ N := by simp_arith at hsize; omega
            obtain ⟨t, hser, hde⟩ := ihv x h1 hwf.1 hmime.1
            obtain ⟨ts, hsers, hdes⟩ := ihl xs h2 hwf.2 hmime.2
            refine ⟨t :: ts, ?_, ?_⟩
            · simp only [serializeValueList, hser, hsers]
            · simp only [deserializeTokenList, hde, hdes]
      · intro es hsize hwf hmime
        cases es with
        | nil =>
            exact ⟨[], by simp [serializeValueEntries], by simp [deserializeTokenEntries]⟩
        | cons hd rest =>
            obtain ⟨k, x⟩ := hd
            simp only [wellFormedEntries, Bool.and_eq_true] at hwf
            simp only [mimeOkEntries, Bool.and_eq_true] at hmime
            have h1 : sizeOf x ≤ N := by simp_arith at hsize; omega
            have h2 : sizeOf rest ≤ N := by simp_arith at hsize; omega
            obtain ⟨t, hser, hde⟩ := ihv x h1 hwf.1 hmime.1
            obtain ⟨ts, hsers, hdes⟩ := ihe rest h2 hwf.2 hmime.2
            refine ⟨(k, t) :: ts, ?_, ?_⟩
            · simp only [serializeValueEntries, hser, hsers]
            · simp only [deserializeTokenEntries, hde, hdes]

/-- C6: serializing a value whose blob mimes are at most 255 bytes to
the self-describing form and deserializing yields an equal value, where
equality treats any two NaN floats as equal (the map well-formedness
hypothesis is the `HashMap` unique-key type invariant made explicit). -/
theorem value_serde_roundtrip (v : Value)
    (hwf : wellFormedValue v = true) (hmime : mimeOkValue v = true) :
    ∃ t v2, serializeValue v = .ok t ∧ deserializeToken t = .ok v2 ∧
      valueEq v v2 = true := by
  obtain ⟨t, hser, hde⟩ := (roundtrip_aux (sizeOf v)).1 v (Nat.le_refl _) hwf hmime
  exact ⟨t, v, hser, hde, valueEq_refl v hwf⟩

/-- C6 witness: the round trip at a concrete value containing an
integer, a NaN float, a nested array, and a blob. -/
theorem value_serde_roundtrip_witness :
    ∃ t v2, serializeValue (Value.map [("i", .integer 4),
        ("f", .float 0x7FF8000000000000),
        ("a", .array [.bool true, .str "x"]),
        ("bl", .blob "tx" [1, 2])]) = .ok t ∧
      deserializeToken t = .ok v2 ∧
      valueEq (Value.map [("i", .integer 4),
        ("f", .float 0x7FF8000000000000),
        ("a", .array [.bool true, .str "x"]),
        ("bl", .blob "tx" [1, 2])]) v2 = true :=
  value_serde_roundtrip _ (by rfl) (by rfl)

end ValueStore

